import Mathlib

/-!
Verification of the voxel Rubik's-cube lattice engine (`main.py`).

The development shallowly embeds the program: `VoxelRubiks` (lattice model,
move algebra, rotation engine) and `Scene` (turn scheduler of
`VoxelQtScene`).  Machine floating point is modelled by exact rational
arithmetic: `math.cos(±π/2)` evaluates to the IEEE-754 double
`4967757600021511 / 2^106` (not zero) and `math.sin(±π/2)` to exactly
`±1`; `np.rint` is round-half-to-even.  Coordinates are stored by the
program in an `int16` array, so lattice sizes are meaningful only for
`n ≤ 32768`; theorems about rounding exactness carry that bound as a
hypothesis.
-/

namespace Rubics

/-- Face bits `U, D, F, B, L, R = 1, 2, 4, 8, 16, 32` from the source. -/
def U : ℕ := 1

/-- Face bit `D`. -/
def D : ℕ := 2

/-- Face bit `F`. -/
def F : ℕ := 4

/-- Face bit `B`. -/
def B : ℕ := 8

/-- Face bit `L`. -/
def L : ℕ := 16

/-- Face bit `R`. -/
def R : ℕ := 32

/-- The `Move` dataclass: axis is one of the strings `"x"`, `"y"`, `"z"`,
`index` a slice index, `k` a quarter-turn count (documented as 1..3). -/
structure Move where
  axis : String
  index : ℤ
  k : ℤ
  deriving DecidableEq, Repr

/-- Integer points `0, 1, …, n-1` as a list, the ascending iteration order
of Python's `range(n)`. -/
def rangeZ (n : ℕ) : List ℤ :=
  (List.range n).map (fun k : ℕ => (k : ℤ))

/-- The shell predicate of the constructor:
`x in (0, n-1) or y in (0, n-1) or z in (0, n-1)`. -/
def isShell (n : ℕ) (x y z : ℤ) : Prop :=
  x = 0 ∨ x = (n : ℤ) - 1 ∨ y = 0 ∨ y = (n : ℤ) - 1 ∨ z = 0 ∨ z = (n : ℤ) - 1

instance (n : ℕ) (x y z : ℤ) : Decidable (isShell n x y z) := by
  unfold isShell; infer_instance

/-- The face mask assigned to a cubelet at `(x, y, z)` by the constructor's
chain of `mask |= …` updates. -/
def cellMask (n : ℕ) (x y z : ℤ) : ℕ :=
  (if z = 0 then U else 0) |||
  (if z = (n : ℤ) - 1 then D else 0) |||
  (if y = 0 then F else 0) |||
  (if y = (n : ℤ) - 1 then B else 0) |||
  (if x = 0 then L else 0) |||
  (if x = (n : ℤ) - 1 then R else 0)

/-- The constructor's triple loop over `z`, `y`, `x` (each ascending),
keeping only shell cells and pairing each coordinate with its mask. -/
def shellCells (n : ℕ) : List ((ℤ × ℤ × ℤ) × ℕ) :=
  (rangeZ n).flatMap (fun z =>
    (rangeZ n).flatMap (fun y =>
      (rangeZ n).filterMap (fun x =>
        if isShell n x y z then some ((x, y, z), cellMask n x y z) else none)))

/-- The `VoxelRubiks` model state: size, cubelet coordinates, face masks,
the solved snapshot and the recorded move history. -/
structure VoxelRubiks where
  n : ℕ
  coords : List (ℤ × ℤ × ℤ)
  masks : List ℕ
  solved : List (ℤ × ℤ × ℤ)
  history : List Move
  deriving Repr

/-- The state built by `VoxelRubiks.__init__` for a given size (after the
assertion `n >= 2` has passed). -/
def VoxelRubiks.make (n : ℕ) : VoxelRubiks :=
  { n := n
    coords := (shellCells n).map Prod.fst
    masks := (shellCells n).map Prod.snd
    solved := (shellCells n).map Prod.fst
    history := [] }

/-- `VoxelRubiks.__init__` with its `assert isinstance(n, int) and n>=2`
guard: construction fails (AssertionError) unless `2 ≤ n`. -/
def VoxelRubiks.init (n : ℤ) : Option VoxelRubiks :=
  if 2 ≤ n then some (VoxelRubiks.make n.toNat) else none

/-- The rotation pivot `self.half = (n-1)/2.0`. -/
def half (n : ℕ) : ℚ :=
  ((n : ℚ) - 1) / 2

/-- The IEEE-754 double value of `math.cos(math.pi/2)` (and of
`math.cos(-math.pi/2)`): `6.123233995736766e-17`, whose exact rational
value is `4967757600021511 / 2^106`.  It is small but not zero. -/
def cosHalfPi : ℚ :=
  4967757600021511 / 2 ^ 106

/-- `np.rint`: round to the nearest integer, ties to the even integer. -/
def rintQ (q : ℚ) : ℤ :=
  if q - (⌊q⌋ : ℚ) < 1 / 2 then ⌊q⌋
  else if 1 / 2 < q - (⌊q⌋ : ℚ) then ⌊q⌋ + 1
  else if 2 ∣ ⌊q⌋ then ⌊q⌋ else ⌊q⌋ + 1

/-- Slice membership used by `_slice_mask` elementwise: the coordinate
along `axis` equals `index`; any axis other than `"x"` and `"y"` falls to
the `z` branch, exactly as the source's final `return`. -/
def inSlice (axis : String) (index : ℤ) (p : ℤ × ℤ × ℤ) : Bool :=
  if axis = "x" then p.1 = index
  else if axis = "y" then p.2.1 = index
  else p.2.2 = index

/-- `_slice_mask(axis, index)`: the elementwise boolean mask over `coords`. -/
def VoxelRubiks.slice_mask (st : VoxelRubiks) (axis : String) (index : ℤ) : List Bool :=
  st.coords.map (inSlice axis index)

/-- One cubelet position through the body of `_rotate_slice_90`: translate
by `-half`, multiply by the rotation matrix with entries
`c = cos(dir·π/2)` and `s = sin(dir·π/2)` as evaluated in IEEE doubles
(`c = cosHalfPi` for `dir = ±1`, `s = dir` exactly), translate back by
`+half` and `np.rint`-snap every column.  Faithful for `dir ∈ {1, -1}`,
the only values the program uses. -/
def rotPt (axis : String) (dir : ℤ) (h : ℚ) (p : ℤ × ℤ × ℤ) : ℤ × ℤ × ℤ :=
  let c := cosHalfPi
  let s : ℚ := (dir : ℚ)
  let px : ℚ := (p.1 : ℚ) - h
  let py : ℚ := (p.2.1 : ℚ) - h
  let pz : ℚ := (p.2.2 : ℚ) - h
  if axis = "x" then
    (rintQ (px + h), rintQ ((c * py - s * pz) + h), rintQ ((s * py + c * pz) + h))
  else if axis = "y" then
    (rintQ ((c * px + s * pz) + h), rintQ (py + h), rintQ ((-s * px + c * pz) + h))
  else
    (rintQ ((c * px - s * py) + h), rintQ ((s * px + c * py) + h), rintQ (pz + h))

/-- The coordinate update of `_rotate_slice_90`: rows selected by the
slice mask are rotated and written back, all other rows are untouched. -/
def rotCoords (n : ℕ) (axis : String) (index dir : ℤ) (cs : List (ℤ × ℤ × ℤ)) :
    List (ℤ × ℤ × ℤ) :=
  cs.map (fun p => if inSlice axis index p then rotPt axis dir (half n) p else p)

/-- `_rotate_slice_90(axis, index, dir_sign)`: commit one 90° slice
rotation into the lattice state. -/
def VoxelRubiks.rotate_slice_90 (st : VoxelRubiks) (axis : String) (index dir : ℤ) :
    VoxelRubiks :=
  { st with coords := rotCoords st.n axis index dir st.coords }

/-- `inverse_history` of a recorded history list: reverse chronological
order, each count mapped to `(4 - (k % 4)) % 4`, zero counts dropped. -/
def inverseHistory (hist : List Move) : List Move :=
  hist.reverse.filterMap (fun m =>
    let invK := (4 - m.k % 4) % 4
    if invK ≠ 0 then some ⟨m.axis, m.index, invK⟩ else none)

/-- The method `VoxelRubiks.inverse_history`, reading `self.history`. -/
def VoxelRubiks.inverse_history (st : VoxelRubiks) : List Move :=
  inverseHistory st.history

/-- Applying one recorded move to the lattice the way the scheduler does:
`enqueue_move` expands it into `k % 4` unit quarter-turns with
`dir = +1`, each committed by `_rotate_slice_90`. -/
def applyMoveC (n : ℕ) (m : Move) (cs : List (ℤ × ℤ × ℤ)) : List (ℤ × ℤ × ℤ) :=
  (rotCoords n m.axis m.index 1)^[(m.k % 4).toNat] cs

/-- Applying a list of moves in order to the coordinates. -/
def applyMovesC (n : ℕ) (cs : List (ℤ × ℤ × ℤ)) (ms : List Move) : List (ℤ × ℤ × ℤ) :=
  ms.foldl (fun acc m => applyMoveC n m acc) cs

/-- Applying a list of moves in order to a `VoxelRubiks` state via slice
rotation commits (history is not touched by commits). -/
def VoxelRubiks.applyMoves (st : VoxelRubiks) (ms : List Move) : VoxelRubiks :=
  { st with coords := applyMovesC st.n st.coords ms }

/-- Coordinates lying in the cube `[0, n-1]^3`. -/
def inRange (n : ℕ) (p : ℤ × ℤ × ℤ) : Prop :=
  0 ≤ p.1 ∧ p.1 ≤ (n : ℤ) - 1 ∧ 0 ≤ p.2.1 ∧ p.2.1 ≤ (n : ℤ) - 1 ∧
    0 ≤ p.2.2 ∧ p.2.2 ≤ (n : ℤ) - 1

instance (n : ℕ) (p : ℤ × ℤ × ℤ) : Decidable (inRange n p) := by
  unfold inRange; infer_instance

/-- Python `max` on integers (first argument wins ties). -/
def pymaxZ (a b : ℤ) : ℤ :=
  if a < b then b else a

/-- Python `max` on rationals. -/
def pymaxQ (a b : ℚ) : ℚ :=
  if a < b then b else a

/-- Python `min` on rationals. -/
def pyminQ (a b : ℚ) : ℚ :=
  if b < a then b else a

/-- Python `int()` on a real value: truncation toward zero
(`Rat.floor` of the absolute part, written computably). -/
def pyInt (q : ℚ) : ℤ :=
  if 0 ≤ q then Rat.floor q else -(Rat.floor (-q))

/-- `total_frames = max(1, int(self.frames_per_turn / self.speed))` from
`_on_tick`.  Note the truncating `int()`, not rounding. -/
def total_frames (frames_per_turn : ℕ) (speed : ℚ) : ℤ :=
  pymaxZ 1 (pyInt ((frames_per_turn : ℚ) / speed))

/-- `t01 = self.frame / max(1, total_frames - 1)` from `_on_tick`. -/
def t01 (frame : ℕ) (total : ℤ) : ℚ :=
  (frame : ℚ) / ((pymaxZ 1 (total - 1) : ℤ) : ℚ)

/-- `on_speed_changed`: slider value 1..50 mapped by
`0.25 + (value-1) * (3.75/49.0)`, as an exact rational. -/
def speedOfSlider (value : ℤ) : ℚ :=
  1 / 4 + ((value : ℚ) - 1) * ((15 / 4) / 49)

/-- The IEEE-754 double `math.pi / 2.0`, exactly
`884279719003555 / 2^49`.  It only parametrizes the presentation angle. -/
def halfPiDouble : ℚ :=
  884279719003555 / 2 ^ 49

/-- Scheduler and presentation state of `VoxelQtScene`: the authoritative
model, the FIFO queue of unit quarter-turns `(axis, index, dir)`,
animation bookkeeping, and the cubelet transform translations (the Qt
entities' positions, the presentation feed). -/
structure Scene where
  model : VoxelRubiks
  queue : List (String × ℤ × ℤ)
  animating : Bool
  frame : ℕ
  frames_per_turn : ℕ
  speed : ℚ
  current_move : Option (String × ℤ × ℤ)
  moving_indices : Option (List ℕ)
  positions : List (ℚ × ℚ × ℚ)

/-- The scene as `VoxelQtScene.__init__` leaves it: solved model, empty
queue, not animating, `frames_per_turn = 12`, `speed = 1.0`, and each
cubelet's transform at its centered solved position. -/
def Scene.mk0 (n : ℕ) : Scene :=
  let model := VoxelRubiks.make n
  { model := model
    queue := []
    animating := false
    frame := 0
    frames_per_turn := 12
    speed := 1
    current_move := none
    moving_indices := none
    positions := model.coords.map (fun p =>
      ((p.1 : ℚ) - half n, (p.2.1 : ℚ) - half n, (p.2.2 : ℚ) - half n)) }

/-- `enqueue_move(axis, index, k, record)`: expand `k % 4` unit
quarter-turns with `dir = +1` onto the queue; when `record` is set,
append `Move(axis, index, k % 4)` to the model history.  Note the source
appends the history entry unconditionally, even when `k % 4 == 0`. -/
def Scene.enqueue_move (sc : Scene) (axis : String) (index k : ℤ) (record : Bool) : Scene :=
  let steps := k % 4
  let sc' := { sc with queue := sc.queue ++ List.replicate steps.toNat (axis, index, 1) }
  if record then
    { sc' with model :=
        { sc'.model with history := sc'.model.history ++ [⟨axis, index, steps⟩] } }
  else sc'

/-- `np.where(mask)[0]`: the indices of the `true` entries. -/
def whereTrue (mask : List Bool) : List ℕ :=
  (List.range mask.length).filter (fun i => mask.getD i false)

/-- `_start_next_turn`: settle to idle on an empty queue, otherwise pop
the front unit turn, reset the frame counter and precompute the moving
slice indices. -/
def Scene.start_next_turn (sc : Scene) : Scene :=
  match sc.queue with
  | [] => { sc with animating := false, current_move := none, moving_indices := none }
  | (axis, index, dir) :: rest =>
      { sc with
        animating := true
        frame := 0
        queue := rest
        current_move := some (axis, index, dir)
        moving_indices := some (whereTrue (sc.model.slice_mask axis index)) }

/-- Interpolated presentation position of one moving cubelet during
`_on_tick`, for an angle `dir·(π/2)·t01`.  The cosine and sine of that
angle are floats of the presentation layer only; they enter as the
opaque parameters `cosF` and `sinF`. -/
def interpPos (cosF sinF : ℚ → ℚ) (axis : String) (angle : ℚ) (h : ℚ)
    (p : ℤ × ℤ × ℤ) : ℚ × ℚ × ℚ :=
  let c := cosF angle
  let s := sinF angle
  let px : ℚ := (p.1 : ℚ) - h
  let py : ℚ := (p.2.1 : ℚ) - h
  let pz : ℚ := (p.2.2 : ℚ) - h
  if axis = "x" then (px, c * py - s * pz, s * py + c * pz)
  else if axis = "y" then (c * px + s * pz, py, -s * px + c * pz)
  else (c * px - s * py, s * px + c * py, pz)

/-- Write new translations for the listed cubelet indices
(`set_position` on each moving entity). -/
def setPositions (ps : List (ℚ × ℚ × ℚ)) (idxs : List ℕ) (f : ℕ → ℚ × ℚ × ℚ) :
    List (ℚ × ℚ × ℚ) :=
  idxs.foldl (fun acc i => acc.set i (f i)) ps

/-- The centered base position `(x-h, y-h, z-h)` of a lattice cubelet. -/
def basePos (h : ℚ) (p : ℤ × ℤ × ℤ) : ℚ × ℚ × ℚ :=
  ((p.1 : ℚ) - h, (p.2.1 : ℚ) - h, (p.2.2 : ℚ) - h)

/-- `_on_tick`: start the next queued turn when idle; while animating,
write interpolated positions for the moving slice into the presentation
transforms, advance the frame counter, and on `frame ≥ total_frames`
commit the rotation into the model via `_rotate_slice_90`, snap the
moving transforms to the new bases, and immediately start the next
queued turn. -/
def Scene.on_tick (cosF sinF : ℚ → ℚ) (sc0 : Scene) : Scene :=
  let sc := if ¬ sc0.animating ∧ sc0.queue ≠ [] then sc0.start_next_turn else sc0
  if ¬ sc.animating then sc
  else
    match sc.current_move with
    | none => sc
    | some (axis, index, dir) =>
      let total := total_frames sc.frames_per_turn sc.speed
      let t := t01 sc.frame total
      let angle := (dir : ℚ) * halfPiDouble * t
      let h := half sc.model.n
      let moving := sc.moving_indices.getD []
      let sc1 := { sc with positions :=
        (setPositions sc.positions moving (fun i =>
          interpPos cosF sinF axis angle h (sc.model.coords.getD i (0, 0, 0)))) }
      let sc2 := { sc1 with frame := sc1.frame + 1 }
      if total ≤ (sc2.frame : ℤ) then
        let m := sc2.model.rotate_slice_90 axis index dir
        let sc3 := { sc2 with model := m, positions :=
          (setPositions sc2.positions moving (fun i =>
            basePos h (m.coords.getD i (0, 0, 0)))) }
        sc3.start_next_turn
      else sc2

/-- Modelled from the spec: Python's module-level `random` PRNG (the
stdlib Mersenne Twister, an external component not part of this
repository) as a deterministic state machine on `ℕ`.  `random.seed(s)`
sets the state to `s`; each draw advances the state by a fixed step.
Only determinism and the reset semantics of `seed` are relied upon. -/
def rngNext (s : ℕ) : ℕ :=
  (1103515245 * s + 12345) % 2 ^ 31

/-- Modelled from the spec: one uniform draw in `[0, bound-1]`
(`random.choice` on a list of length `bound`, `random.randint(0, bound-1)`),
consuming one PRNG step. -/
def rngDraw (bound : ℕ) (s : ℕ) : ℕ × ℕ :=
  (rngNext s % bound, rngNext s)

/-- One iteration of the scramble loop: `axis = random.choice(axes)`,
`index = random.randint(0, self.n-1)`, `k = random.choice([1,2,3])`. -/
def scrambleStep (n : ℕ) (s : ℕ) : Move × ℕ :=
  let a := rngDraw 3 s
  let axis := ["x", "y", "z"].getD a.1 "x"
  let b := rngDraw n a.2
  let c := rngDraw 3 b.2
  (⟨axis, (b.1 : ℤ), ((c.1 : ℤ) + 1)⟩, c.2)

/-- The scramble loop generating `cnt` moves from PRNG state `s`. -/
def scrambleSeq (n : ℕ) : ℕ → ℕ → List Move × ℕ
  | 0, s => ([], s)
  | cnt + 1, s =>
    let ms := scrambleStep n s
    let rest := scrambleSeq n cnt ms.2
    (ms.1 :: rest.1, rest.2)

/-- `VoxelRubiks.scramble(moves, seed)`: reseed the PRNG when a seed is
given, generate `moves` random moves, extend the history with them and
return the sequence.  The ambient PRNG state is threaded explicitly. -/
def VoxelRubiks.scramble (st : VoxelRubiks) (moves : ℕ) (seed : Option ℕ) (rng : ℕ) :
    List Move × VoxelRubiks × ℕ :=
  let r0 := match seed with
    | some sd => sd
    | none => rng
  let sr := scrambleSeq st.n moves r0
  (sr.1, { st with history := st.history ++ sr.1 }, sr.2)

/-- The FNV-1a 32-bit hash of `on_scramble_clicked`: offset basis
`2166136261`, per character XOR with the code point then multiply by the
prime `16777619`, masked to 32 bits. -/
def fnv1a (t : String) : ℕ :=
  t.data.foldl (fun h ch => ((h ^^^ ch.toNat) * 16777619) % 2 ^ 32) 2166136261

/-- Seed derivation of `on_scramble_clicked`: `None` for empty text,
otherwise the FNV-1a hash (the text is taken after `strip()`). -/
def deriveSeed (seedText : String) : Option ℕ :=
  if seedText = "" then none else some (fnv1a seedText)

/-- An RGB color with exact rational components (`QColor` observed
through `redF/greenF/blueF`; alpha is always 1). -/
abbrev Color := ℚ × ℚ × ℚ

/-- The face color table of `blend_colors`, each component the exact
fraction `v/255` of its hex byte. -/
def face_colors : List (ℕ × Color) :=
  [(U, (1, 214 / 255, 10 / 255)),
   (D, (1, 1, 1)),
   (F, (0, 166 / 255, 81 / 255)),
   (B, (0, 87 / 255, 1)),
   (L, (1, 140 / 255, 0)),
   (R, (1, 0, 48 / 255))]

/-- The accumulation loop of `blend_colors`: component sums and the
count `cnt` of contributing faces. -/
def blendAcc (bits : ℕ) : ℚ × ℚ × ℚ × ℕ :=
  face_colors.foldl
    (fun a bc =>
      if bits &&& bc.1 ≠ 0 then
        (a.1 + bc.2.1, a.2.1 + bc.2.2.1, a.2.2.1 + bc.2.2.2, a.2.2.2 + 1)
      else a)
    (0, 0, 0, 0)

/-- The dark fallback color `#111111` returned when `cnt == 0`. -/
def fallbackColor : Color :=
  (17 / 255, 17 / 255, 17 / 255)

/-- `blend_colors(bits)`: average of the face colors whose bits are set,
componentwise clamped to `[0,1]`, with the dark fallback on `cnt == 0`. -/
def blend_colors (bits : ℕ) : Color :=
  let a := blendAcc bits
  if a.2.2.2 = 0 then fallbackColor
  else
    (pymaxQ 0 (pyminQ 1 (a.1 / (a.2.2.2 : ℚ))),
     pymaxQ 0 (pyminQ 1 (a.2.1 / (a.2.2.2 : ℚ))),
     pymaxQ 0 (pyminQ 1 (a.2.2.1 / (a.2.2.2 : ℚ))))

/-- The exact integer action of one committed quarter-turn on a cubelet
of the rotated slice: the value `_rotate_slice_90`'s float
rotate-then-snap computes on in-range coordinates (proved below in
`rotPt_eq_intRot`). -/
def intRot (axis : String) (dir : ℤ) (n : ℕ) (p : ℤ × ℤ × ℤ) : ℤ × ℤ × ℤ :=
  if axis = "x" then
    if dir = 1 then (p.1, (n : ℤ) - 1 - p.2.2, p.2.1)
    else (p.1, p.2.2, (n : ℤ) - 1 - p.2.1)
  else if axis = "y" then
    if dir = 1 then (p.2.2, p.2.1, (n : ℤ) - 1 - p.1)
    else ((n : ℤ) - 1 - p.2.2, p.2.1, p.1)
  else
    if dir = 1 then ((n : ℤ) - 1 - p.2.1, p.1, p.2.2)
    else (p.2.1, (n : ℤ) - 1 - p.1, p.2.2)

/-- The pointwise action of one committed slice rotation at the integer
level: rotate the point if it lies in the slice, leave it alone
otherwise. -/
def sliceRotI (axis : String) (index dir : ℤ) (n : ℕ) (p : ℤ × ℤ × ℤ) : ℤ × ℤ × ℤ :=
  if inSlice axis index p then intRot axis dir n p else p

/-- The shell predicate on a coordinate triple. -/
def isShellP (n : ℕ) (p : ℤ × ℤ × ℤ) : Prop :=
  isShell n p.1 p.2.1 p.2.2

instance (n : ℕ) (p : ℤ × ℤ × ℤ) : Decidable (isShellP n p) := by
  unfold isShellP; infer_instance

/-- The solved coordinate list of a size-`n` lattice. -/
def solvedCoords (n : ℕ) : List (ℤ × ℤ × ℤ) :=
  (shellCells n).map Prod.fst

/-- A concrete mid-animation scene on the 2-lattice, used to witness the
scheduler theorems: one unit turn of the `x = 0` slice just started. -/
def sceneW : Scene :=
  { model := VoxelRubiks.make 2
    queue := [("y", 1, 1)]
    animating := true
    frame := 0
    frames_per_turn := 12
    speed := 1
    current_move := some ("x", 0, 1)
    moving_indices := some [0, 2, 4, 6]
    positions := [] }

/-- Rounding an integer plus a perturbation smaller than one half in
absolute value recovers the integer. -/
theorem rintQ_intCast_add (k : ℤ) (e : ℚ) (he : |e| < 1 / 2) :
    rintQ ((k : ℚ) + e) = k := by
  have h1 : -(1 / 2 : ℚ) < e := (abs_lt.mp he).1
  have h2 : e < 1 / 2 := (abs_lt.mp he).2
  rcases le_or_lt 0 e with h0 | h0
  · have hf : ⌊(k : ℚ) + e⌋ = k := by
      rw [Int.floor_eq_iff]
      constructor
      · linarith
      · have hcast : ((k : ℤ) : ℚ) + 1 = ((k + 1 : ℤ) : ℚ) := by push_cast; ring
        linarith
    simp only [rintQ, hf]
    rw [if_pos (by linarith)]
  · have hf : ⌊(k : ℚ) + e⌋ = k - 1 := by
      rw [Int.floor_eq_iff]
      constructor
      · push_cast
        linarith
      · push_cast
        linarith
    simp only [rintQ, hf]
    rw [if_neg (by push_cast; linarith), if_pos (by push_cast; linarith)]
    omega

/-- Rounding an exact integer is the identity. -/
theorem rintQ_intCast (k : ℤ) : rintQ (k : ℚ) = k := by
  have := rintQ_intCast_add k 0 (by norm_num)
  simpa using this

/-- The spurious cosine term of the float rotation is below the rounding
threshold for every coordinate of an `int16`-sized lattice. -/
theorem cos_term_small {n : ℕ} (hn : n ≤ 32768) {w : ℤ} (h0 : 0 ≤ w)
    (h1 : w ≤ (n : ℤ) - 1) : |cosHalfPi * ((w : ℚ) - half n)| < 1 / 2 := by
  have hw0 : (0 : ℚ) ≤ (w : ℚ) := by exact_mod_cast h0
  have hw1 : (w : ℚ) ≤ (n : ℚ) - 1 := by
    have h1' : ((w : ℤ) : ℚ) ≤ (((n : ℤ) - 1 : ℤ) : ℚ) := by exact_mod_cast h1
    push_cast at h1'
    linarith
  have habs : |(w : ℚ) - half n| ≤ half n := by
    rw [abs_le]
    unfold half
    constructor <;> linarith
  have hhn : half n ≤ 32767 / 2 := by
    unfold half
    have hq : (n : ℚ) ≤ 32768 := by exact_mod_cast hn
    linarith
  have hc : (0 : ℚ) < cosHalfPi := by unfold cosHalfPi; norm_num
  rw [abs_mul, abs_of_pos hc]
  calc cosHalfPi * |(w : ℚ) - half n| ≤ cosHalfPi * (32767 / 2) := by
        apply mul_le_mul_of_nonneg_left _ (le_of_lt hc)
        exact le_trans habs hhn
    _ < 1 / 2 := by unfold cosHalfPi; norm_num

/-- On in-range coordinates of an `int16`-sized lattice, the float
rotate-then-snap equals the exact integer quarter-turn. -/
theorem rotPt_eq_intRot {axis : String} {dir : ℤ} {n : ℕ} {p : ℤ × ℤ × ℤ}
    (hd : dir = 1 ∨ dir = -1) (hn : n ≤ 32768) (hp : inRange n p) :
    rotPt axis dir (half n) p = intRot axis dir n p := by
  obtain ⟨x, y, z⟩ := p
  obtain ⟨hx0, hx1, hy0, hy1, hz0, hz1⟩ := hp
  have hsnap : ∀ (K w : ℤ), 0 ≤ w → w ≤ (n : ℤ) - 1 → ∀ q : ℚ,
      q = (K : ℚ) + cosHalfPi * ((w : ℚ) - half n) → rintQ q = K := by
    intro K w hw0 hw1 q hq
    rw [hq]
    exact rintQ_intCast_add K _ (cos_term_small hn hw0 hw1)
  have hfix : ∀ a : ℤ, rintQ (((a : ℚ) - half n) + half n) = a := by
    intro a
    rw [show ((a : ℚ) - half n) + half n = ((a : ℤ) : ℚ) by ring]
    exact rintQ_intCast a
  rcases hd with hd | hd <;> subst hd <;>
    by_cases hax : axis = "x"
  · subst hax
    simp only [rotPt, intRot, String.reduceEq, reduceIte, Prod.mk.injEq]
    refine ⟨hfix x, ?_, ?_⟩
    · exact hsnap ((n : ℤ) - 1 - z) y hy0 hy1 _ (by simp only [half]; push_cast; ring)
    · exact hsnap y z hz0 hz1 _ (by simp only [half]; push_cast; ring)
  · by_cases hay : axis = "y"
    · subst hay
      simp only [rotPt, intRot, String.reduceEq, reduceIte, Prod.mk.injEq]
      refine ⟨?_, hfix y, ?_⟩
      · exact hsnap z x hx0 hx1 _ (by simp only [half]; push_cast; ring)
      · exact hsnap ((n : ℤ) - 1 - x) z hz0 hz1 _ (by simp only [half]; push_cast; ring)
    · simp only [rotPt, intRot, hax, hay, String.reduceEq, reduceIte, Prod.mk.injEq]
      refine ⟨?_, ?_, hfix z⟩
      · exact hsnap ((n : ℤ) - 1 - y) x hx0 hx1 _ (by simp only [half]; push_cast; ring)
      · exact hsnap x y hy0 hy1 _ (by simp only [half]; push_cast; ring)
  · subst hax
    simp only [rotPt, intRot, String.reduceEq, reduceIte, Int.reduceEq, Prod.mk.injEq]
    refine ⟨hfix x, ?_, ?_⟩
    · exact hsnap z y hy0 hy1 _ (by simp only [half]; push_cast; ring)
    · exact hsnap ((n : ℤ) - 1 - y) z hz0 hz1 _ (by simp only [half]; push_cast; ring)
  · by_cases hay : axis = "y"
    · subst hay
      simp only [rotPt, intRot, String.reduceEq, reduceIte, Int.reduceEq, Prod.mk.injEq]
      refine ⟨?_, hfix y, ?_⟩
      · exact hsnap ((n : ℤ) - 1 - z) x hx0 hx1 _ (by simp only [half]; push_cast; ring)
      · exact hsnap x z hz0 hz1 _ (by simp only [half]; push_cast; ring)
    · simp only [rotPt, intRot, hax, hay, String.reduceEq, reduceIte, Int.reduceEq,
        Prod.mk.injEq]
      refine ⟨?_, ?_, hfix z⟩
      · exact hsnap y x hx0 hx1 _ (by simp only [half]; push_cast; ring)
      · exact hsnap ((n : ℤ) - 1 - x) y hy0 hy1 _ (by simp only [half]; push_cast; ring)

/-- A quarter-turn never moves the coordinate along its own axis, so
slice membership is preserved. -/
theorem inSlice_intRot (axis : String) (i dir : ℤ) (n : ℕ) (p : ℤ × ℤ × ℤ) :
    inSlice axis i (intRot axis dir n p) = inSlice axis i p := by
  by_cases hax : axis = "x"
  · subst hax
    by_cases hd : dir = 1 <;> simp [inSlice, intRot, hd]
  · by_cases hay : axis = "y"
    · subst hay
      by_cases hd : dir = 1 <;> simp [inSlice, intRot, hax, hd]
    · by_cases hd : dir = 1 <;> simp [inSlice, intRot, hax, hay, hd]

/-- The integer quarter-turn keeps in-range coordinates in range. -/
theorem intRot_inRange {n : ℕ} {p : ℤ × ℤ × ℤ} (axis : String) (dir : ℤ)
    (hp : inRange n p) : inRange n (intRot axis dir n p) := by
  obtain ⟨x, y, z⟩ := p
  have hp' : 0 ≤ x ∧ x ≤ (n : ℤ) - 1 ∧ 0 ≤ y ∧ y ≤ (n : ℤ) - 1 ∧
      0 ≤ z ∧ z ≤ (n : ℤ) - 1 := hp
  obtain ⟨hx0, hx1, hy0, hy1, hz0, hz1⟩ := hp'
  unfold intRot inRange
  by_cases hax : axis = "x" <;> by_cases hay : axis = "y" <;> by_cases hd : dir = 1 <;>
    simp [hax, hay, hd] <;> omega

/-- Four identical integer quarter-turns are the identity. -/
theorem intRot_four (axis : String) (dir : ℤ) (n : ℕ) (p : ℤ × ℤ × ℤ)
    (hd : dir = 1 ∨ dir = -1) :
    intRot axis dir n (intRot axis dir n (intRot axis dir n (intRot axis dir n p))) = p := by
  obtain ⟨x, y, z⟩ := p
  rcases hd with hd | hd <;> subst hd <;>
    by_cases hax : axis = "x" <;> by_cases hay : axis = "y" <;>
      simp [intRot, hax, hay]

/-- Opposite quarter-turns cancel. -/
theorem intRot_cancel (axis : String) (dir : ℤ) (n : ℕ) (p : ℤ × ℤ × ℤ)
    (hd : dir = 1 ∨ dir = -1) :
    intRot axis (-dir) n (intRot axis dir n p) = p := by
  obtain ⟨x, y, z⟩ := p
  rcases hd with hd | hd <;> subst hd <;>
    by_cases hax : axis = "x" <;> by_cases hay : axis = "y" <;>
      simp [intRot, hax, hay]

/-- The integer quarter-turn is injective. -/
theorem intRot_injective (axis : String) (dir : ℤ) (n : ℕ)
    (hd : dir = 1 ∨ dir = -1) : Function.Injective (intRot axis dir n) := by
  intro p q hpq
  have h1 := intRot_cancel axis dir n p hd
  have h2 := intRot_cancel axis dir n q hd
  rw [← h1, ← h2, hpq]

/-- Shell membership is preserved by the integer quarter-turn. -/
theorem isShellP_intRot (axis : String) (dir : ℤ) (n : ℕ) (p : ℤ × ℤ × ℤ) :
    isShellP n (intRot axis dir n p) ↔ isShellP n p := by
  obtain ⟨x, y, z⟩ := p
  by_cases hax : axis = "x" <;> by_cases hay : axis = "y" <;> by_cases hd : dir = 1 <;>
    simp [isShellP, isShell, intRot, hax, hay, hd] <;> omega

/-- `sliceRotI` preserves slice membership. -/
theorem sliceRotI_inSlice (axis : String) (i dir : ℤ) (n : ℕ) (p : ℤ × ℤ × ℤ) :
    inSlice axis i (sliceRotI axis i dir n p) = inSlice axis i p := by
  unfold sliceRotI
  by_cases h : inSlice axis i p = true
  · rw [if_pos h, inSlice_intRot]
  · rw [if_neg h]

/-- `sliceRotI` keeps in-range coordinates in range. -/
theorem sliceRotI_inRange {n : ℕ} {p : ℤ × ℤ × ℤ} (axis : String) (i dir : ℤ)
    (hp : inRange n p) : inRange n (sliceRotI axis i dir n p) := by
  unfold sliceRotI
  by_cases h : inSlice axis i p = true
  · rw [if_pos h]
    exact intRot_inRange axis dir hp
  · rw [if_neg h]
    exact hp

/-- `sliceRotI` preserves shell membership. -/
theorem sliceRotI_isShellP (axis : String) (i dir : ℤ) (n : ℕ) (p : ℤ × ℤ × ℤ) :
    isShellP n (sliceRotI axis i dir n p) ↔ isShellP n p := by
  unfold sliceRotI
  by_cases h : inSlice axis i p = true
  · rw [if_pos h, isShellP_intRot]
  · rw [if_neg h]

/-- `sliceRotI` is injective. -/
theorem sliceRotI_injective (axis : String) (i dir : ℤ) (n : ℕ)
    (hd : dir = 1 ∨ dir = -1) : Function.Injective (sliceRotI axis i dir n) := by
  intro p q h
  have hslice : inSlice axis i p = inSlice axis i q := by
    rw [← sliceRotI_inSlice axis i dir n p, ← sliceRotI_inSlice axis i dir n q, h]
  by_cases hp : inSlice axis i p = true
  · have hq : inSlice axis i q = true := by rw [← hslice]; exact hp
    unfold sliceRotI at h
    rw [if_pos hp, if_pos hq] at h
    exact intRot_injective axis dir n hd h
  · have hq : ¬ inSlice axis i q = true := by rw [← hslice]; exact hp
    unfold sliceRotI at h
    rw [if_neg hp, if_neg hq] at h
    exact h

/-- Four identical `sliceRotI` applications are the identity. -/
theorem sliceRotI_four (axis : String) (i dir : ℤ) (n : ℕ) (p : ℤ × ℤ × ℤ)
    (hd : dir = 1 ∨ dir = -1) :
    sliceRotI axis i dir n (sliceRotI axis i dir n (sliceRotI axis i dir n
      (sliceRotI axis i dir n p))) = p := by
  by_cases h : inSlice axis i p = true
  · have h1 : sliceRotI axis i dir n p = intRot axis dir n p := if_pos h
    have m1 : inSlice axis i (intRot axis dir n p) = true := by
      rw [inSlice_intRot]; exact h
    have h2 : sliceRotI axis i dir n (intRot axis dir n p) =
        intRot axis dir n (intRot axis dir n p) := if_pos m1
    have m2 : inSlice axis i (intRot axis dir n (intRot axis dir n p)) = true := by
      rw [inSlice_intRot]; exact m1
    have h3 : sliceRotI axis i dir n (intRot axis dir n (intRot axis dir n p)) =
        intRot axis dir n (intRot axis dir n (intRot axis dir n p)) := if_pos m2
    have m3 : inSlice axis i
        (intRot axis dir n (intRot axis dir n (intRot axis dir n p))) = true := by
      rw [inSlice_intRot]; exact m2
    have h4 : sliceRotI axis i dir n
        (intRot axis dir n (intRot axis dir n (intRot axis dir n p))) =
        intRot axis dir n (intRot axis dir n (intRot axis dir n (intRot axis dir n p))) :=
      if_pos m3
    rw [h1, h2, h3, h4]
    exact intRot_four axis dir n p hd
  · have e : sliceRotI axis i dir n p = p := if_neg h
    rw [e, e, e, e]

/-- On in-range coordinates the committed rotation of `_rotate_slice_90`
is exactly the pointwise integer slice rotation. -/
theorem rotCoords_eq_map {n : ℕ} {axis : String} {index dir : ℤ}
    {cs : List (ℤ × ℤ × ℤ)} (hd : dir = 1 ∨ dir = -1) (hn : n ≤ 32768)
    (hcs : ∀ p ∈ cs, inRange n p) :
    rotCoords n axis index dir cs = cs.map (sliceRotI axis index dir n) := by
  unfold rotCoords
  apply List.map_congr_left
  intro p hp
  unfold sliceRotI
  by_cases h : inSlice axis index p = true
  · rw [if_pos h, if_pos h, rotPt_eq_intRot hd hn (hcs p hp)]
  · rw [if_neg h, if_neg h]

/-- The committed rotation keeps all coordinates in range. -/
theorem rotCoords_inRange {n : ℕ} {axis : String} {index dir : ℤ}
    {cs : List (ℤ × ℤ × ℤ)} (hd : dir = 1 ∨ dir = -1) (hn : n ≤ 32768)
    (hcs : ∀ p ∈ cs, inRange n p) :
    ∀ p ∈ rotCoords n axis index dir cs, inRange n p := by
  rw [rotCoords_eq_map hd hn hcs]
  intro p hp
  rw [List.mem_map] at hp
  obtain ⟨q, hq, rfl⟩ := hp
  exact sliceRotI_inRange axis index dir (hcs q hq)

/-- Four identical committed quarter-turns restore the coordinates. -/
theorem rotCoords_four {n : ℕ} {axis : String} {index dir : ℤ}
    {cs : List (ℤ × ℤ × ℤ)} (hd : dir = 1 ∨ dir = -1) (hn : n ≤ 32768)
    (hcs : ∀ p ∈ cs, inRange n p) :
    rotCoords n axis index dir (rotCoords n axis index dir (rotCoords n axis index dir
      (rotCoords n axis index dir cs))) = cs := by
  have hcs1 := @rotCoords_inRange n axis index dir cs hd hn hcs
  have hcs2 := @rotCoords_inRange n axis index dir _ hd hn hcs1
  have hcs3 := @rotCoords_inRange n axis index dir _ hd hn hcs2
  rw [rotCoords_eq_map hd hn hcs3, rotCoords_eq_map hd hn hcs2,
    rotCoords_eq_map hd hn hcs1, rotCoords_eq_map hd hn hcs]
  rw [List.map_map, List.map_map, List.map_map]
  calc cs.map (sliceRotI axis index dir n ∘ sliceRotI axis index dir n ∘
        sliceRotI axis index dir n ∘ sliceRotI axis index dir n)
      = cs.map id := by
        apply List.map_congr_left
        intro p _
        simp only [Function.comp_apply, id_eq]
        exact sliceRotI_four axis index dir n p hd
    _ = cs := List.map_id cs

/-- Iterated form of `rotCoords_four`. -/
theorem rotCoords_iter_four {n : ℕ} {axis : String} {index dir : ℤ}
    {cs : List (ℤ × ℤ × ℤ)} (hd : dir = 1 ∨ dir = -1) (hn : n ≤ 32768)
    (hcs : ∀ p ∈ cs, inRange n p) :
    (rotCoords n axis index dir)^[4] cs = cs := by
  show rotCoords n axis index dir (rotCoords n axis index dir (rotCoords n axis index dir
      (rotCoords n axis index dir cs))) = cs
  exact rotCoords_four hd hn hcs

/-- Membership in the integer range list. -/
theorem mem_rangeZ {n : ℕ} {a : ℤ} : a ∈ rangeZ n ↔ 0 ≤ a ∧ a < n := by
  unfold rangeZ
  rw [List.mem_map]
  constructor
  · rintro ⟨k, hk, rfl⟩
    rw [List.mem_range] at hk
    omega
  · rintro ⟨h0, h1⟩
    refine ⟨a.toNat, ?_, by omega⟩
    rw [List.mem_range]
    omega

/-- The integer range list has no duplicates. -/
theorem nodup_rangeZ (n : ℕ) : (rangeZ n).Nodup := by
  unfold rangeZ
  exact (List.nodup_range n).map (fun a b h => by exact_mod_cast h)

/-- Characterization of the constructor's cell list. -/
theorem mem_shellCells {n : ℕ} {pr : (ℤ × ℤ × ℤ) × ℕ} :
    pr ∈ shellCells n ↔ ∃ x y z : ℤ,
      (0 ≤ x ∧ x < n) ∧ (0 ≤ y ∧ y < n) ∧ (0 ≤ z ∧ z < n) ∧ isShell n x y z ∧
        pr = ((x, y, z), cellMask n x y z) := by
  unfold shellCells
  simp only [List.mem_flatMap, List.mem_filterMap, mem_rangeZ]
  constructor
  · rintro ⟨z, hz, y, hy, x, hx, hif⟩
    by_cases hs : isShell n x y z
    · rw [if_pos hs] at hif
      exact ⟨x, y, z, hx, hy, hz, hs, (Option.some.inj hif).symm⟩
    · rw [if_neg hs] at hif
      cases hif
  · rintro ⟨x, y, z, hx, hy, hz, hs, rfl⟩
    exact ⟨z, hz, y, hy, x, hx, by rw [if_pos hs]⟩

/-- The solved coordinates are exactly the in-range shell points. -/
theorem mem_solvedCoords {n : ℕ} {p : ℤ × ℤ × ℤ} :
    p ∈ solvedCoords n ↔ inRange n p ∧ isShellP n p := by
  unfold solvedCoords
  simp only [List.mem_map]
  constructor
  · rintro ⟨pr, hpr, rfl⟩
    rw [mem_shellCells] at hpr
    obtain ⟨x, y, z, hx, hy, hz, hs, rfl⟩ := hpr
    refine ⟨?_, hs⟩
    show 0 ≤ x ∧ x ≤ (n : ℤ) - 1 ∧ 0 ≤ y ∧ y ≤ (n : ℤ) - 1 ∧ 0 ≤ z ∧ z ≤ (n : ℤ) - 1
    omega
  · rintro ⟨hr, hs⟩
    obtain ⟨x, y, z⟩ := p
    have hr' : 0 ≤ x ∧ x ≤ (n : ℤ) - 1 ∧ 0 ≤ y ∧ y ≤ (n : ℤ) - 1 ∧
        0 ≤ z ∧ z ≤ (n : ℤ) - 1 := hr
    refine ⟨((x, y, z), cellMask n x y z), ?_, rfl⟩
    rw [mem_shellCells]
    exact ⟨x, y, z, by omega, by omega, by omega, hs, rfl⟩

/-- Every cell of the inner loop carries its loop coordinates. -/
theorem mem_innerCells {n : ℕ} {y z : ℤ} {c : (ℤ × ℤ × ℤ) × ℕ}
    (hc : c ∈ (rangeZ n).filterMap (fun x =>
      if isShell n x y z then some ((x, y, z), cellMask n x y z) else none)) :
    c.1.2.1 = y ∧ c.1.2.2 = z := by
  rw [List.mem_filterMap] at hc
  obtain ⟨x, _, hif⟩ := hc
  by_cases hs : isShell n x y z
  · rw [if_pos hs] at hif
    obtain rfl := Option.some.inj hif
    exact ⟨rfl, rfl⟩
  · rw [if_neg hs] at hif
    cases hif

/-- The constructor visits each cell at most once. -/
theorem nodup_shellCells (n : ℕ) : (shellCells n).Nodup := by
  unfold shellCells
  rw [List.nodup_flatMap]
  constructor
  · intro z _
    rw [List.nodup_flatMap]
    constructor
    · intro y _
      apply List.Nodup.filterMap ?_ (nodup_rangeZ n)
      intro a b c hca hcb
      rw [Option.mem_def] at hca hcb
      by_cases ha : isShell n a y z
      · by_cases hb : isShell n b y z
        · rw [if_pos ha] at hca
          rw [if_pos hb] at hcb
          have hab := (Option.some.inj hca).trans (Option.some.inj hcb).symm
          have hfst := congrArg (fun pr : (ℤ × ℤ × ℤ) × ℕ => pr.1.1) hab
          simpa using hfst
        · rw [if_neg hb] at hcb
          cases hcb
      · rw [if_neg ha] at hca
        cases hca
    · apply (nodup_rangeZ n).imp
      intro a b hab c hc1 hc2
      exact hab ((mem_innerCells hc1).1.symm.trans (mem_innerCells hc2).1)
  · apply (nodup_rangeZ n).imp
    intro a b hab c hc1 hc2
    rw [List.mem_flatMap] at hc1 hc2
    obtain ⟨y1, _, hm1⟩ := hc1
    obtain ⟨y2, _, hm2⟩ := hc2
    exact hab ((mem_innerCells hm1).2.symm.trans (mem_innerCells hm2).2)

/-- The solved coordinate list has no duplicates: no two cubelets start
at the same position. -/
theorem nodup_solvedCoords (n : ℕ) : (solvedCoords n).Nodup := by
  unfold solvedCoords
  apply List.Nodup.map_on ?_ (nodup_shellCells n)
  intro pr hpr qr hqr hfst
  rw [mem_shellCells] at hpr hqr
  obtain ⟨x, y, z, _, _, _, _, rfl⟩ := hpr
  obtain ⟨a, b, c, _, _, _, _, rfl⟩ := hqr
  have hfst' : (x, y, z) = ((a, b, c) : ℤ × ℤ × ℤ) := hfst
  obtain ⟨rfl, rfl, rfl⟩ : x = a ∧ y = b ∧ z = c := by
    simpa using hfst'
  rfl

/-- The pointwise slice rotation maps solved positions to solved
positions. -/
theorem sliceRotI_mem_solved {n : ℕ} (axis : String) (i dir : ℤ) :
    ∀ p ∈ solvedCoords n, sliceRotI axis i dir n p ∈ solvedCoords n := by
  intro p hp
  rw [mem_solvedCoords] at hp ⊢
  exact ⟨sliceRotI_inRange axis i dir hp.1, (sliceRotI_isShellP axis i dir n p).mpr hp.2⟩

/-- The pointwise slice rotation permutes the solved coordinate list. -/
theorem map_sliceRotI_perm {n : ℕ} (axis : String) (i dir : ℤ)
    (hd : dir = 1 ∨ dir = -1) :
    ((solvedCoords n).map (sliceRotI axis i dir n)).Perm (solvedCoords n) := by
  rw [← Multiset.coe_eq_coe]
  have hnd := nodup_solvedCoords n
  have hmapnd : ((solvedCoords n).map (sliceRotI axis i dir n)).Nodup :=
    hnd.map (sliceRotI_injective axis i dir n hd)
  have hsub : ((solvedCoords n).map (sliceRotI axis i dir n) : Multiset (ℤ × ℤ × ℤ)) ≤
      (solvedCoords n : Multiset (ℤ × ℤ × ℤ)) := by
    rw [Multiset.le_iff_subset (Multiset.coe_nodup.mpr hmapnd)]
    intro c hc
    rw [Multiset.mem_coe, List.mem_map] at hc
    obtain ⟨q, hq, rfl⟩ := hc
    rw [Multiset.mem_coe]
    exact sliceRotI_mem_solved axis i dir q hq
  have hcard : Multiset.card ((solvedCoords n : Multiset (ℤ × ℤ × ℤ))) ≤
      Multiset.card ((solvedCoords n).map (sliceRotI axis i dir n) : Multiset (ℤ × ℤ × ℤ)) := by
    rw [Multiset.coe_card, Multiset.coe_card, List.length_map]
  exact Multiset.eq_of_le_of_card_le hsub hcard

/-- After a committed rotation the coordinates are still a permutation of
the solved coordinate set, are pairwise distinct, and stay inside the
cube: the invariant of the lattice model. -/
theorem rotate_slice_90_coords_perm (st : VoxelRubiks) (axis : String) (index dir : ℤ)
    (hd : dir = 1 ∨ dir = -1) (hn : st.n ≤ 32768)
    (hperm : st.coords.Perm (solvedCoords st.n)) :
    (st.rotate_slice_90 axis index dir).coords.Perm (solvedCoords st.n) := by
  have hcs : ∀ p ∈ st.coords, inRange st.n p := by
    intro p hp
    exact (mem_solvedCoords.mp (hperm.mem_iff.mp hp)).1
  have hrot : (st.rotate_slice_90 axis index dir).coords =
      st.coords.map (sliceRotI axis index dir st.n) := by
    show rotCoords st.n axis index dir st.coords = _
    exact rotCoords_eq_map hd hn hcs
  rw [hrot]
  exact (hperm.map (sliceRotI axis index dir st.n)).trans
    (map_sliceRotI_perm axis index dir hd)

/-- Committed moves keep coordinates in range. -/
theorem applyMoveC_inRange {n : ℕ} {cs : List (ℤ × ℤ × ℤ)} (m : Move) (hn : n ≤ 32768)
    (hcs : ∀ p ∈ cs, inRange n p) : ∀ p ∈ applyMoveC n m cs, inRange n p := by
  unfold applyMoveC
  generalize (m.k % 4).toNat = t
  induction t generalizing cs with
  | zero => simpa using hcs
  | succ t ih =>
      rw [Function.iterate_succ_apply]
      exact ih (rotCoords_inRange (Or.inl rfl) hn hcs)

/-- Move sequences keep coordinates in range. -/
theorem applyMovesC_inRange {n : ℕ} {cs : List (ℤ × ℤ × ℤ)} (ms : List Move)
    (hn : n ≤ 32768) (hcs : ∀ p ∈ cs, inRange n p) :
    ∀ p ∈ applyMovesC n cs ms, inRange n p := by
  induction ms generalizing cs with
  | nil => simpa [applyMovesC] using hcs
  | cons m ms ih =>
      rw [show applyMovesC n cs (m :: ms) = applyMovesC n (applyMoveC n m cs) ms from rfl]
      exact ih (applyMoveC_inRange m hn hcs)

/-- A recorded move followed by its inverse move restores the lattice. -/
theorem applyMove_cancel {n : ℕ} {cs : List (ℤ × ℤ × ℤ)} (m : Move) (hn : n ≤ 32768)
    (hcs : ∀ p ∈ cs, inRange n p) :
    applyMoveC n ⟨m.axis, m.index, (4 - m.k % 4) % 4⟩ (applyMoveC n m cs) = cs := by
  unfold applyMoveC
  simp only
  have hdvd : (((4 - m.k % 4) % 4) % 4 : ℤ) = (4 - m.k % 4) % 4 :=
    Int.emod_emod_of_dvd _ dvd_rfl
  rw [hdvd]
  by_cases h0 : m.k % 4 = 0
  · rw [h0]
    norm_num
  · have hk0 : 0 ≤ m.k % 4 := Int.emod_nonneg _ (by norm_num)
    have hk4 : m.k % 4 < 4 := Int.emod_lt_of_pos _ (by norm_num)
    have hinv : ((4 - m.k % 4) % 4 : ℤ) = 4 - m.k % 4 := Int.emod_eq_of_lt (by omega) (by omega)
    rw [hinv, ← Function.iterate_add_apply]
    rw [show (4 - m.k % 4).toNat + (m.k % 4).toNat = 4 by omega]
    exact rotCoords_iter_four (Or.inl rfl) hn hcs

/-- Round trip of a history and its inverse, at the coordinate level. -/
theorem roundTripC {n : ℕ} (hn : n ≤ 32768) (hist : List Move) :
    ∀ cs : List (ℤ × ℤ × ℤ), (∀ p ∈ cs, inRange n p) →
      applyMovesC n (applyMovesC n cs hist) (inverseHistory hist) = cs := by
  induction hist using List.reverseRecOn with
  | nil => intro cs _; rfl
  | append_singleton hist m ih =>
      intro cs hcs
      by_cases h0 : ((4 - m.k % 4) % 4 : ℤ) = 0
      · have hk0 : m.k % 4 = 0 := by omega
        have hinv : inverseHistory (hist ++ [m]) = inverseHistory hist := by
          unfold inverseHistory
          rw [List.reverse_append]
          simp [List.filterMap_cons, hk0]
        have happ : applyMovesC n cs (hist ++ [m]) = applyMovesC n cs hist := by
          unfold applyMovesC
          rw [List.foldl_append]
          simp only [List.foldl_cons, List.foldl_nil]
          unfold applyMoveC
          rw [hk0]
          simp
        rw [hinv, happ]
        exact ih cs hcs
      · have hnd : ¬ (4 : ℤ) ∣ m.k % 4 := by omega
        have hinv : inverseHistory (hist ++ [m]) =
            (⟨m.axis, m.index, (4 - m.k % 4) % 4⟩ : Move) :: inverseHistory hist := by
          unfold inverseHistory
          rw [List.reverse_append]
          simp [List.filterMap_cons, hnd]
        have happ : applyMovesC n cs (hist ++ [m]) =
            applyMoveC n m (applyMovesC n cs hist) := by
          unfold applyMovesC
          rw [List.foldl_append]
          rfl
        rw [hinv, happ]
        rw [show applyMovesC n (applyMoveC n m (applyMovesC n cs hist))
              ((⟨m.axis, m.index, (4 - m.k % 4) % 4⟩ : Move) :: inverseHistory hist) =
            applyMovesC n (applyMoveC n ⟨m.axis, m.index, (4 - m.k % 4) % 4⟩
              (applyMoveC n m (applyMovesC n cs hist))) (inverseHistory hist) from rfl]
        rw [applyMove_cancel m hn (applyMovesC_inRange hist hn hcs)]
        exact ih cs hcs

/-- C2: after every committed slice rotation the lattice invariant holds:
every cubelet position is an exact integer triple (structurally, the
snap produces integers) inside `[0, n-1]^3`, no two cubelets occupy the
same position, and the rotation is a bijection of the occupied lattice
points: `coords` stays a permutation of the solved coordinate set.
Hypotheses: `dir` is a signed unit (the only values the program passes),
the lattice fits the program's `int16` storage, and the pre-state
satisfies the permutation invariant. -/
theorem rotate_slice_90_invariant (st : VoxelRubiks) (axis : String) (index dir : ℤ)
    (hd : dir = 1 ∨ dir = -1) (hn : st.n ≤ 32768)
    (hperm : st.coords.Perm (solvedCoords st.n)) :
    (st.rotate_slice_90 axis index dir).coords.Perm (solvedCoords st.n) ∧
    (st.rotate_slice_90 axis index dir).coords.Nodup ∧
    ∀ p ∈ (st.rotate_slice_90 axis index dir).coords, inRange st.n p := by
  have hp2 := rotate_slice_90_coords_perm st axis index dir hd hn hperm
  refine ⟨hp2, hp2.nodup_iff.mpr (nodup_solvedCoords st.n), ?_⟩
  intro p hp
  exact (mem_solvedCoords.mp (hp2.mem_iff.mp hp)).1

/-- Witness for `rotate_slice_90_invariant` at a concrete lattice. -/
theorem rotate_slice_90_invariant_witness :
    ((VoxelRubiks.make 2).rotate_slice_90 "x" 0 1).coords.Perm (solvedCoords 2) ∧
    ((VoxelRubiks.make 2).rotate_slice_90 "x" 0 1).coords.Nodup :=
  ⟨(rotate_slice_90_invariant (VoxelRubiks.make 2) "x" 0 1 (Or.inl rfl) (by decide)
      (List.Perm.refl (solvedCoords 2))).1,
   (rotate_slice_90_invariant (VoxelRubiks.make 2) "x" 0 1 (Or.inl rfl) (by decide)
      (List.Perm.refl (solvedCoords 2))).2.1⟩

/-- C3: four consecutive quarter-turn commits of the same slice in the
same direction restore every cubelet's integer coordinates exactly,
despite the floating cos/sin inside the rotation. -/
theorem rotate_four_identity (st : VoxelRubiks) (axis : String) (index dir : ℤ)
    (hd : dir = 1 ∨ dir = -1) (hn : st.n ≤ 32768)
    (hcs : ∀ p ∈ st.coords, inRange st.n p) :
    ((((st.rotate_slice_90 axis index dir).rotate_slice_90 axis index dir).rotate_slice_90
        axis index dir).rotate_slice_90 axis index dir).coords = st.coords := by
  show rotCoords st.n axis index dir (rotCoords st.n axis index dir (rotCoords st.n axis index
      dir (rotCoords st.n axis index dir st.coords))) = st.coords
  exact rotCoords_four hd hn hcs

/-- Witness for `rotate_four_identity` at a concrete lattice, slice and
direction. -/
theorem rotate_four_identity_witness :
    (((((VoxelRubiks.make 2).rotate_slice_90 "y" 1 (-1)).rotate_slice_90 "y" 1
        (-1)).rotate_slice_90 "y" 1 (-1)).rotate_slice_90 "y" 1 (-1)).coords =
    (VoxelRubiks.make 2).coords :=
  rotate_four_identity (VoxelRubiks.make 2) "y" 1 (-1) (Or.inr rfl) (by decide) (by decide)

/-- C1: applying every move of the recorded history in order via slice
rotation commits (each move expanded to `k mod 4` unit quarter-turns)
and then applying the sequence returned by `inverse_history` — reverse
chronological order, counts mapped to `(4 - (k mod 4)) mod 4`, zero
counts omitted — restores every cubelet's integer coordinates exactly. -/
theorem inverse_history_round_trip (st : VoxelRubiks) (hn : st.n ≤ 32768)
    (hcs : ∀ p ∈ st.coords, inRange st.n p) :
    ((st.applyMoves st.history).applyMoves st.inverse_history).coords = st.coords := by
  show applyMovesC st.n (applyMovesC st.n st.coords st.history) (inverseHistory st.history) =
    st.coords
  exact roundTripC hn st.history st.coords hcs

/-- Witness for `inverse_history_round_trip` on a lattice with a
nontrivial recorded history. -/
theorem inverse_history_round_trip_witness :
    ((({ VoxelRubiks.make 2 with
          history := [⟨"x", 0, 1⟩, ⟨"y", 1, 2⟩, ⟨"z", 0, 7⟩] } : VoxelRubiks).applyMoves
        ({ VoxelRubiks.make 2 with
          history := [⟨"x", 0, 1⟩, ⟨"y", 1, 2⟩, ⟨"z", 0, 7⟩] } : VoxelRubiks).history).applyMoves
      ({ VoxelRubiks.make 2 with
          history := [⟨"x", 0, 1⟩, ⟨"y", 1, 2⟩, ⟨"z", 0, 7⟩] } : VoxelRubiks).inverse_history).coords =
    ({ VoxelRubiks.make 2 with
        history := [⟨"x", 0, 1⟩, ⟨"y", 1, 2⟩, ⟨"z", 0, 7⟩] } : VoxelRubiks).coords :=
  inverse_history_round_trip
    { VoxelRubiks.make 2 with history := [⟨"x", 0, 1⟩, ⟨"y", 1, 2⟩, ⟨"z", 0, 7⟩] }
    (by decide) (by decide)

/-- C4, evaluated at the failing input: `enqueue_move("x", 0, 4)` with
recording on appends `Move("x", 0, 0)` to the history instead of leaving
it unchanged — the normalized count is recorded even when it is zero,
contradicting the spec and the `Move` dataclass's own `1..3` comment. -/
theorem enqueue_move_records_noop :
    ((Scene.mk0 2).enqueue_move "x" 0 4 true).model.history = [⟨"x", 0, 0⟩] ∧
    (Scene.mk0 2).model.history = [] := by
  constructor
  · rfl
  · rfl

/-- C5 counterexample: an invalid axis string (`"w"`) together with an
out-of-range slice index (5 on a 2-lattice) is not rejected — the call
is silently processed and mutates both the queue and the history. -/
theorem invalid_input_not_rejected :
    ((Scene.mk0 2).enqueue_move "w" 5 1 true).queue ≠ (Scene.mk0 2).queue ∧
    ((Scene.mk0 2).enqueue_move "w" 5 1 true).model.history ≠ (Scene.mk0 2).model.history := by
  constructor
  · decide
  · decide

/-- C5 amended: construction does fail fast for `n < 2` (assertion), but
the other inputs listed by the claim are not validated: a non-{x,y}
axis string is treated as `z` by slice selection, `enqueue_move`
accepts any axis, index and count and mutates queue and history without
validation, and a zero-move scramble returns an empty sequence rather
than failing. -/
theorem invalid_input_behaviour :
    (∀ n : ℤ, (VoxelRubiks.init n).isSome ↔ 2 ≤ n) ∧
    (∀ (st : VoxelRubiks) (axis : String) (index : ℤ), axis ≠ "x" → axis ≠ "y" →
      st.slice_mask axis index = st.slice_mask "z" index) ∧
    (∀ (sc : Scene) (axis : String) (index k : ℤ),
      (sc.enqueue_move axis index k true).model.history =
        sc.model.history ++ [⟨axis, index, k % 4⟩] ∧
      (sc.enqueue_move axis index k true).queue =
        sc.queue ++ List.replicate (k % 4).toNat (axis, index, 1)) ∧
    (∀ (st : VoxelRubiks) (seed : Option ℕ) (rng : ℕ), (st.scramble 0 seed rng).1 = []) := by
  refine ⟨?_, ?_, ?_, ?_⟩
  · intro n
    unfold VoxelRubiks.init
    by_cases h : 2 ≤ n
    · simp [h]
    · simp [h]
  · intro st axis index hx hy
    unfold VoxelRubiks.slice_mask
    apply List.map_congr_left
    intro p _
    unfold inSlice
    rw [if_neg hx, if_neg hy, if_neg (by decide : ¬("z" : String) = "x"),
      if_neg (by decide : ¬("z" : String) = "y")]
  · intro sc axis index k
    exact ⟨rfl, rfl⟩
  · intro st seed rng
    unfold VoxelRubiks.scramble
    cases seed <;> rfl

/-- Witness for `invalid_input_behaviour`: the `"w"` axis selects the
same slice mask as `"z"`. -/
theorem invalid_input_behaviour_witness :
    (VoxelRubiks.make 2).slice_mask "w" 5 = (VoxelRubiks.make 2).slice_mask "z" 5 :=
  invalid_input_behaviour.2.1 (VoxelRubiks.make 2) "w" 5 (by decide) (by decide)

/-- C6: with a non-empty (stripped) seed text, the 32-bit seed is the
FNV-1a hash of the text, and two scrambles with the same move count and
seed text produce identical move sequences and histories regardless of
the ambient PRNG state — hence identical lattices after replay. -/
theorem scramble_deterministic (t : String) (ht : t ≠ "") (st : VoxelRubiks)
    (moves : ℕ) (rng₁ rng₂ : ℕ) :
    deriveSeed t = some (fnv1a t) ∧
    (st.scramble moves (deriveSeed t) rng₁).1 = (st.scramble moves (deriveSeed t) rng₂).1 ∧
    (st.scramble moves (deriveSeed t) rng₁).2.1.history =
      (st.scramble moves (deriveSeed t) rng₂).2.1.history ∧
    (st.applyMoves (st.scramble moves (deriveSeed t) rng₁).1).coords =
      (st.applyMoves (st.scramble moves (deriveSeed t) rng₂).1).coords := by
  have hds : deriveSeed t = some (fnv1a t) := if_neg ht
  refine ⟨hds, ?_, ?_, ?_⟩ <;> rw [hds]
  · rfl
  · rfl
  · rfl

/-- Witness for `scramble_deterministic` with the seed text `"abc"`. -/
theorem scramble_deterministic_witness :
    deriveSeed "abc" = some (fnv1a "abc") ∧
    ((VoxelRubiks.make 2).scramble 3 (deriveSeed "abc") 0).1 =
      ((VoxelRubiks.make 2).scramble 3 (deriveSeed "abc") 99).1 ∧
    ((VoxelRubiks.make 2).scramble 3 (deriveSeed "abc") 0).2.1.history =
      ((VoxelRubiks.make 2).scramble 3 (deriveSeed "abc") 99).2.1.history ∧
    ((VoxelRubiks.make 2).applyMoves
        ((VoxelRubiks.make 2).scramble 3 (deriveSeed "abc") 0).1).coords =
      ((VoxelRubiks.make 2).applyMoves
        ((VoxelRubiks.make 2).scramble 3 (deriveSeed "abc") 99).1).coords :=
  scramble_deterministic "abc" (by decide) (VoxelRubiks.make 2) 3 0 99

/-- The source-level `Rat.floor` is the mathematical floor. -/
theorem ratFloor_eq_intFloor (q : ℚ) : Rat.floor q = ⌊q⌋ :=
  (Rat.floor_def' q).trans Rat.floor_def.symm

/-- Python `int()` on a nonnegative rational is the floor. -/
theorem pyInt_eq_floor {q : ℚ} (hq : 0 ≤ q) : pyInt q = ⌊q⌋ := by
  unfold pyInt
  rw [if_pos hq, ratFloor_eq_intFloor]

/-- C7 counterexample: at the slider-reachable speed `16/49` (slider
value 2) with the default 12 frames per turn, the code's
`max(1, int(12/speed))` yields 36 while the claimed
`max(1, round(12/speed))` yields 37 — the code truncates. -/
theorem total_frames_not_round :
    speedOfSlider 2 = 16 / 49 ∧
    total_frames 12 (speedOfSlider 2) = 36 ∧
    max 1 (round ((12 : ℚ) / speedOfSlider 2)) = 37 := by
  have hq : ((12 : ℕ) : ℚ) / speedOfSlider 2 = 147 / 4 := by norm_num [speedOfSlider]
  refine ⟨by norm_num [speedOfSlider], ?_, ?_⟩
  · unfold total_frames
    rw [hq, pyInt_eq_floor (by norm_num)]
    rw [show ⌊(147 : ℚ) / 4⌋ = 36 by norm_num]
    unfold pymaxZ
    norm_num
  have h37 : round ((12 : ℚ) / speedOfSlider 2) = 37 := by
    rw [show (12 : ℚ) / speedOfSlider 2 = 147 / 4 by norm_num [speedOfSlider], round_eq]
    norm_num
  rw [h37]
  exact max_eq_right (by norm_num)

/-- Python integer `max` agrees with the mathematical `max`. -/
theorem pymaxZ_eq_max (a b : ℤ) : pymaxZ a b = max a b := by
  unfold pymaxZ
  split_ifs with h
  · exact (max_eq_right (le_of_lt h)).symm
  · exact (max_eq_left (by omega)).symm

/-- C7 amended: the frame count is `max(1, trunc(framesPerTurn/speed))`
with Python `int()` truncation toward zero — for positive speed, the
floor — not rounding; it is at least 1, and the interpolation fraction
is `frame / max(1, totalFrames - 1)`. -/
theorem total_frames_truncates (fpt : ℕ) (speed : ℚ) (hs : 0 < speed) :
    1 ≤ total_frames fpt speed ∧
    total_frames fpt speed = max 1 ⌊(fpt : ℚ) / speed⌋ ∧
    ∀ frame : ℕ, t01 frame (total_frames fpt speed) =
      (frame : ℚ) / ((pymaxZ 1 (total_frames fpt speed - 1) : ℤ) : ℚ) := by
  have hnn : (0 : ℚ) ≤ (fpt : ℚ) / speed := div_nonneg (Nat.cast_nonneg fpt) (le_of_lt hs)
  refine ⟨?_, ?_, fun frame => rfl⟩
  · unfold total_frames pymaxZ
    split_ifs with h
    · omega
    · exact le_refl 1
  · unfold total_frames
    rw [pyInt_eq_floor hnn, pymaxZ_eq_max]

/-- Witness for `total_frames_truncates` at 12 frames per turn and
speed 2. -/
theorem total_frames_truncates_witness :
    1 ≤ total_frames 12 2 ∧
    total_frames 12 2 = max 1 ⌊((12 : ℕ) : ℚ) / 2⌋ ∧
    t01 3 (total_frames 12 2) =
      ((3 : ℕ) : ℚ) / ((pymaxZ 1 (total_frames 12 2 - 1) : ℤ) : ℚ) :=
  ⟨(total_frames_truncates 12 2 (by norm_num)).1,
   (total_frames_truncates 12 2 (by norm_num)).2.1,
   (total_frames_truncates 12 2 (by norm_num)).2.2 3⟩

/-- C8: for every axis and any lattice state with in-range coordinates,
the slice masks partition the cubelets: every cubelet index is selected
by exactly one slice index `i ∈ [0, n-1]` — masks for distinct indices
are disjoint and their union covers each cubelet once. -/
theorem slice_mask_partition (st : VoxelRubiks) (axis : String)
    (hcs : ∀ p ∈ st.coords, inRange st.n p) (j : ℕ) (hj : j < st.coords.length) :
    ∃! i : ℤ, (0 ≤ i ∧ i ≤ (st.n : ℤ) - 1) ∧
      (st.slice_mask axis i).getD j false = true := by
  have hget : ∀ i : ℤ, (st.slice_mask axis i).getD j false =
      inSlice axis i (st.coords.get ⟨j, hj⟩) := by
    intro i
    unfold VoxelRubiks.slice_mask
    rw [List.getD_eq_getElem?_getD, List.getElem?_map, List.getElem?_eq_getElem hj]
    rfl
  have hp : st.coords.get ⟨j, hj⟩ ∈ st.coords := List.get_mem _ _ _
  obtain ⟨h1, h2, h3, h4, h5, h6⟩ := hcs _ hp
  have key : ∀ i : ℤ, inSlice axis i (st.coords.get ⟨j, hj⟩) = true ↔
      (if axis = "x" then (st.coords.get ⟨j, hj⟩).1
       else if axis = "y" then (st.coords.get ⟨j, hj⟩).2.1
       else (st.coords.get ⟨j, hj⟩).2.2) = i := by
    intro i
    unfold inSlice
    by_cases hax : axis = "x"
    · simp [hax]
    · by_cases hay : axis = "y" <;> simp [hax, hay]
  refine ⟨if axis = "x" then (st.coords.get ⟨j, hj⟩).1
       else if axis = "y" then (st.coords.get ⟨j, hj⟩).2.1
       else (st.coords.get ⟨j, hj⟩).2.2, ⟨⟨?_, ?_⟩, ?_⟩, ?_⟩
  · split_ifs <;> assumption
  · split_ifs <;> assumption
  · rw [hget, key]
  · intro i hi
    rw [hget, key] at hi
    exact hi.2.symm

/-- Witness for `slice_mask_partition` on the solved 2-lattice, axis
`x`, cubelet 0. -/
theorem slice_mask_partition_witness :
    ∃! i : ℤ, (0 ≤ i ∧ i ≤ ((VoxelRubiks.make 2).n : ℤ) - 1) ∧
      ((VoxelRubiks.make 2).slice_mask "x" i).getD 0 false = true :=
  slice_mask_partition (VoxelRubiks.make 2) "x" (by decide) 0 (by decide)

/-- C9: the authoritative lattice is never partially rotated.  While a
turn is animating short of its final frame, a tick writes interpolated
positions only into the presentation transforms: model, queue and
current move are untouched and only the frame counter advances.  When
the incremented frame counter reaches `total_frames`, the tick commits
exactly one `_rotate_slice_90` into the model and only then dequeues the
next unit turn from the front of the FIFO queue.  Proved for every
cosine/sine implementation of the presentation layer. -/
theorem on_tick_commit_discipline (cosF sinF : ℚ → ℚ) (sc : Scene) (axis : String)
    (index dir : ℤ) (hanim : sc.animating = true)
    (hcm : sc.current_move = some (axis, index, dir)) :
    ((sc.frame : ℤ) + 1 < total_frames sc.frames_per_turn sc.speed →
        (Scene.on_tick cosF sinF sc).model = sc.model ∧
        (Scene.on_tick cosF sinF sc).queue = sc.queue ∧
        (Scene.on_tick cosF sinF sc).current_move = sc.current_move ∧
        (Scene.on_tick cosF sinF sc).frame = sc.frame + 1) ∧
      (total_frames sc.frames_per_turn sc.speed ≤ (sc.frame : ℤ) + 1 →
        (Scene.on_tick cosF sinF sc).model = sc.model.rotate_slice_90 axis index dir ∧
        (Scene.on_tick cosF sinF sc).queue = sc.queue.drop 1 ∧
        (Scene.on_tick cosF sinF sc).current_move = sc.queue.head?) := by
  constructor
  · intro hlt
    have hcond : ¬ (total_frames sc.frames_per_turn sc.speed ≤ ((sc.frame + 1 : ℕ) : ℤ)) := by
      push_cast
      omega
    simp only [Scene.on_tick, hanim, hcm, not_true, false_and, Bool.not_eq_true, reduceIte]
    rw [if_neg hcond]
    exact ⟨rfl, rfl, rfl, rfl⟩
  · intro hle
    have hcond : total_frames sc.frames_per_turn sc.speed ≤ ((sc.frame + 1 : ℕ) : ℤ) := by
      push_cast
      omega
    simp only [Scene.on_tick, hanim, hcm, not_true, false_and, Bool.not_eq_true, reduceIte]
    rw [if_pos hcond]
    cases hq : sc.queue with
    | nil => simp [Scene.start_next_turn, hq]
    | cons m rest =>
        obtain ⟨a2, i2, d2⟩ := m
        simp [Scene.start_next_turn, hq]

/-- Witness for `on_tick_commit_discipline`: a freshly started unit turn
on the 2-lattice, one tick in, leaves the model untouched. -/
theorem on_tick_commit_discipline_witness :
    (Scene.on_tick (fun _ => 1) (fun _ => 0) sceneW).model = sceneW.model ∧
    (Scene.on_tick (fun _ => 1) (fun _ => 0) sceneW).queue = sceneW.queue ∧
    (Scene.on_tick (fun _ => 1) (fun _ => 0) sceneW).current_move = sceneW.current_move ∧
    (Scene.on_tick (fun _ => 1) (fun _ => 0) sceneW).frame = sceneW.frame + 1 :=
  (on_tick_commit_discipline (fun _ => 1) (fun _ => 0) sceneW "x" 0 1 rfl rfl).1
    (by
      show ((0 : ℕ) : ℤ) + 1 < total_frames 12 1
      unfold total_frames
      rw [pyInt_eq_floor (by norm_num)]
      norm_num [pymaxZ])

/-- A bitwise or with a nonzero left operand is nonzero. -/
theorem lor_ne_zero_left {a b : ℕ} (ha : a ≠ 0) : a ||| b ≠ 0 := by
  intro h
  apply ha
  apply Nat.eq_of_testBit_eq
  intro i
  have hcongr := congrArg (fun t => Nat.testBit t i) h
  simp only [Nat.testBit_lor, Nat.zero_testBit, Bool.or_eq_false_iff] at hcongr
  simp [hcongr.1]

/-- A bitwise or with a nonzero right operand is nonzero. -/
theorem lor_ne_zero_right {a b : ℕ} (hb : b ≠ 0) : a ||| b ≠ 0 := by
  intro h
  apply hb
  apply Nat.eq_of_testBit_eq
  intro i
  have hcongr := congrArg (fun t => Nat.testBit t i) h
  simp only [Nat.testBit_lor, Nat.zero_testBit, Bool.or_eq_false_iff] at hcongr
  simp [hcongr.2]

/-- Every shell cubelet gets at least one face flag. -/
theorem cellMask_ne_zero {n : ℕ} {x y z : ℤ} (hs : isShell n x y z) :
    cellMask n x y z ≠ 0 := by
  unfold cellMask
  rcases hs with h | h | h | h | h | h
  · apply lor_ne_zero_left
    apply lor_ne_zero_right
    rw [if_pos h]
    norm_num [L]
  · apply lor_ne_zero_right
    rw [if_pos h]
    norm_num [R]
  · apply lor_ne_zero_left
    apply lor_ne_zero_left
    apply lor_ne_zero_left
    apply lor_ne_zero_right
    rw [if_pos h]
    norm_num [F]
  · apply lor_ne_zero_left
    apply lor_ne_zero_left
    apply lor_ne_zero_right
    rw [if_pos h]
    norm_num [B]
  · apply lor_ne_zero_left
    apply lor_ne_zero_left
    apply lor_ne_zero_left
    apply lor_ne_zero_left
    apply lor_ne_zero_left
    rw [if_pos h]
    norm_num [U]
  · apply lor_ne_zero_left
    apply lor_ne_zero_left
    apply lor_ne_zero_left
    apply lor_ne_zero_left
    apply lor_ne_zero_right
    rw [if_pos h]
    norm_num [D]

/-- Face masks use only the six face bits. -/
theorem cellMask_lt_64 (n : ℕ) (x y z : ℤ) : cellMask n x y z < 64 := by
  show cellMask n x y z < 2 ^ 6
  unfold cellMask
  apply Nat.or_lt_two_pow
  apply Nat.or_lt_two_pow
  apply Nat.or_lt_two_pow
  apply Nat.or_lt_two_pow
  apply Nat.or_lt_two_pow
  all_goals split_ifs <;> norm_num [U, D, F, B, L, R]

set_option maxHeartbeats 3200000 in
/-- For every nonzero six-bit mask, the blend loop counts at least one
face and the result differs from the dark fallback color. -/
theorem blend_bits_facts : ∀ m : ℕ, m < 64 → m ≠ 0 →
    (blendAcc m).2.2.2 ≠ 0 ∧ blend_colors m ≠ fallbackColor := by
  intro m hm hne
  interval_cases m
  · exact absurd rfl hne
  all_goals constructor
  all_goals simp only [blend_colors, blendAcc, face_colors, fallbackColor, List.foldl,
    U, D, F, B, L, R]
  all_goals repeat first | rw [if_pos (by decide)] | rw [if_neg (by decide)]
  all_goals norm_num [pyminQ, pymaxQ, Prod.ext_iff, Prod.fst_one, Prod.snd_one,
    Prod.mk.injEq]

/-- C10: every cubelet of a lattice with `n ≥ 2` receives a nonzero face
mask, so the `cnt == 0` fallback branch of `blend_colors` (the dark
`#111111` color) is unreachable for lattice cubelets. -/
theorem masks_nonzero (n : ℕ) (_hn : 2 ≤ n) :
    ∀ m ∈ (VoxelRubiks.make n).masks, m ≠ 0 ∧ (blendAcc m).2.2.2 ≠ 0 ∧
      blend_colors m ≠ fallbackColor := by
  intro m hm
  have hmem : m ∈ (shellCells n).map Prod.snd := hm
  rw [List.mem_map] at hmem
  obtain ⟨pr, hpr, rfl⟩ := hmem
  rw [mem_shellCells] at hpr
  obtain ⟨x, y, z, hx, hy, hz, hs, rfl⟩ := hpr
  have hne : cellMask n x y z ≠ 0 := cellMask_ne_zero hs
  have hfacts := blend_bits_facts (cellMask n x y z) (cellMask_lt_64 n x y z) hne
  exact ⟨hne, hfacts.1, hfacts.2⟩

/-- Witness for `masks_nonzero`: the corner mask `U|F|L = 21` of the
2-lattice. -/
theorem masks_nonzero_witness :
    (21 : ℕ) ≠ 0 ∧ (blendAcc 21).2.2.2 ≠ 0 ∧ blend_colors 21 ≠ fallbackColor :=
  masks_nonzero 2 (by norm_num) 21 (by decide)

end Rubics
